import Mathlib

/-!
Verification of the bandit decision core of the Multi-Armed Bandit A/B
testing system: the shared BaseAgent statistics model, the EpsilonGreedy,
UCB and ThompsonSampling selection algorithms, the state persistence entry
points, and the ExperimentManager registry.

Conventions of the embedding:
- Rewards, running means and the Beta parameters are rationals (the claims
  about the numerics are stated in exact arithmetic).
- Pull counters are naturals; numpy stores them as float64 but every value
  they ever take is a small integer.
- Randomness is passed in explicitly: each random draw the code makes is a
  parameter of the embedded function.
- A raised Python exception is modelled by returning the exception alongside
  the state as it is at the moment of the raise, so that partial mutation
  before a raise is observable.
-/

namespace MAB

/-- Python exceptions that the modelled code can raise. The three ValueError
constructors record the distinct raise sites of the source (they are all
ValueError in Python, distinguished by their message). -/
inductive PyErr where
  | typeError
  | indexError
  | attributeError
  | alreadyExists (name : String)
  | unknownAlgorithm
  | notFound (name : String)
  deriving DecidableEq, Repr

/-- The statistics state owned by BaseAgent: n_arms, arm_names, counts,
values, total_reward, total_pulls. -/
structure AgentState where
  n_arms : ℕ
  arm_names : List String
  counts : List ℕ
  values : List ℚ
  total_reward : ℚ
  total_pulls : ℕ
  deriving DecidableEq, Repr

/-- Default arm names generated by BaseAgent when none are given. -/
def defaultNames (n : ℕ) : List String :=
  (List.range n).map (fun i => "Arm_" ++ toString i)

/-- BaseAgent constructor: zero counts and values, zero accumulators. A
falsy arm_names argument (None or the empty list) is replaced by the
generated default names. -/
def BaseAgent.init (n : ℕ) (names : List String) : AgentState :=
  { n_arms := n
    arm_names := if names = [] then defaultNames n else names
    counts := List.replicate n 0
    values := List.replicate n 0
    total_reward := 0
    total_pulls := 0 }

/-- Resolution of an integer index against a numpy array of length n:
indices in [0, n) are used directly, indices in [-n, 0) wrap to n + arm,
anything else raises IndexError (modelled by none). -/
def npIndex (n : ℕ) (arm : ℤ) : Option ℕ :=
  if 0 ≤ arm ∧ arm < (n : ℤ) then some arm.toNat
  else if -(n : ℤ) ≤ arm ∧ arm < 0 then some (arm + (n : ℤ)).toNat
  else none

/-- The body of BaseAgent.update once the arm index has been resolved to a
valid position a: increment counts[a], total_pulls, total_reward, then
recompute values[a] by the incremental average
((n - 1) / n) * value + (1 / n) * reward with n the incremented count. -/
def BaseAgent.updateAt (s : AgentState) (a : ℕ) (reward : ℚ) : AgentState :=
  let c := s.counts.getD a 0 + 1
  let n : ℚ := (c : ℚ)
  let v := s.values.getD a 0
  { s with
    counts := s.counts.set a c
    values := s.values.set a (((n - 1) / n) * v + (1 / n) * reward)
    total_reward := s.total_reward + reward
    total_pulls := s.total_pulls + 1 }

/-- BaseAgent.update. Its first statement is counts[arm] += 1, so an
out-of-range index raises IndexError before any field changes; a negative
in-range index silently wraps as numpy indexing does. -/
def BaseAgent.update (s : AgentState) (arm : ℤ) (reward : ℚ) :
    AgentState × Option PyErr :=
  match npIndex s.n_arms arm with
  | none => (s, some .indexError)
  | some a => (BaseAgent.updateAt s a reward, none)

/-- The record written by BaseAgent.save_state (the timestamp field is
omitted: it never participates in a claim). numpy tolist turns the float
counts into Python floats, kept here as rationals. -/
structure SavedRecord where
  n_arms : ℕ
  arm_names : List String
  counts : List ℚ
  values : List ℚ
  total_reward : ℚ
  total_pulls : ℕ
  deriving DecidableEq, Repr

/-- BaseAgent.save_state has the Python signature (self, filepath) and no
other parameter. kwargs lists the names of the extra keyword arguments a
caller passes; any extra keyword argument makes the Python call raise
TypeError before the body runs. -/
def BaseAgent.saveState (s : AgentState) (kwargs : List String) :
    Except PyErr SavedRecord :=
  if kwargs = [] then
    .ok { n_arms := s.n_arms
          arm_names := s.arm_names
          counts := s.counts.map (fun c => (c : ℚ))
          values := s.values
          total_reward := s.total_reward
          total_pulls := s.total_pulls }
  else .error .typeError

/-- BaseAgent.load_state: overwrite counts, values, total_reward and
total_pulls from the record. The Python method has no return statement, so
its value is None; the boolean in the result records that None was
returned (used to model the crash of the subclass load methods). -/
def BaseAgent.loadState (s : AgentState) (r : SavedRecord) : AgentState :=
  { s with
    counts := r.counts.map (fun q => q.num.toNat)
    values := r.values
    total_reward := r.total_reward
    total_pulls := r.total_pulls }

/-! ## EpsilonGreedy -/

/-- EpsilonGreedy state: the base statistics plus epsilon. -/
structure EGState extends AgentState where
  epsilon : ℚ
  deriving DecidableEq, Repr

/-- EpsilonGreedy constructor. -/
def EpsilonGreedy.init (n : ℕ) (epsilon : ℚ) (names : List String) : EGState :=
  { toAgentState := BaseAgent.init n names, epsilon := epsilon }

/-- np.max over a nonempty list (0 on the empty list, where numpy would
raise). -/
def npMax (l : List ℚ) : ℚ :=
  match l with
  | [] => 0
  | x :: xs => xs.foldl max x

/-- The indices np.where(values == max_value) returns: all arm indices
whose value equals the maximum, in increasing order. -/
def EpsilonGreedy.bestArms (s : EGState) : List ℕ :=
  (List.range s.n_arms).filter (fun i => decide (s.values.getD i 0 = npMax s.values))

/-- EpsilonGreedy.select_arm. u is the uniform draw in [0,1) compared with
epsilon; e models np.random.randint(0, n_arms) (a uniform arm index);
t models the uniform index into best_arms drawn by np.random.choice. -/
def EpsilonGreedy.selectArm (s : EGState) (u : ℚ) (e : ℕ) (t : ℕ) : ℕ :=
  if u < s.epsilon then e
  else
    let best := EpsilonGreedy.bestArms s
    best.getD (t % best.length) 0

/-- EpsilonGreedy.update is inherited unchanged from BaseAgent. -/
def EpsilonGreedy.update (s : EGState) (arm : ℤ) (reward : ℚ) :
    EGState × Option PyErr :=
  match BaseAgent.update s.toAgentState arm reward with
  | (_, some err) => (s, some err)
  | (b, none) => ({ s with toAgentState := b }, none)

/-- EpsilonGreedy.save_state calls super().save_state(filepath, epsilon=...),
passing the extra keyword argument epsilon. -/
def EpsilonGreedy.saveState (s : EGState) : Except PyErr SavedRecord :=
  BaseAgent.saveState s.toAgentState ["epsilon"]

/-! ## UCB -/

/-- UCB state: the base statistics plus the exploration constant c and the
transient pending set. The set holds the Python ints that were inserted by
select_arm; update discards its (possibly negative) argument from it. -/
structure UCBState extends AgentState where
  c : ℚ
  pending : Finset ℤ
  deriving DecidableEq

/-- UCB constructor: empty pending set. -/
def UCB.init (n : ℕ) (c : ℚ) (names : List String) : UCBState :=
  { toAgentState := BaseAgent.init n names, c := c, pending := ∅ }

/-- The for-loop of UCB.select_arm: first element of the list satisfying
the predicate. -/
def firstHit (p : ℕ → Bool) : List ℕ → Option ℕ
  | [] => none
  | a :: rest => if p a then some a else firstHit p rest

/-- The warm-up scan of UCB.select_arm: the first arm in index order with
counts[arm] == 0 that is not in pending. -/
def UCB.warmupArm (s : UCBState) : Option ℕ :=
  firstHit (fun a => decide (s.counts.getD a 0 = 0 ∧ (a : ℤ) ∉ s.pending))
    (List.range s.n_arms)

/-- The UCB scores values + c * sqrt(log(max(total_pulls, 1)) / safe_counts)
with safe_counts = np.maximum(counts, 1e-5), one score per arm. -/
noncomputable def UCB.scores (s : UCBState) : List ℝ :=
  (List.range s.n_arms).map (fun i =>
    (s.values.getD i 0 : ℝ) +
      (s.c : ℝ) *
        Real.sqrt (Real.log (max (s.total_pulls : ℝ) 1) /
          max ((s.counts.getD i 0 : ℕ) : ℝ) (1 / 100000)))

/-- Scan step of np.argmax over the tail of the list: i is the index of the
head of the remaining list, best the index of the current maximum m; a later
element replaces the current maximum only when strictly greater, so the
first occurrence of the maximum wins. -/
noncomputable def argmaxGo : List ℝ → ℕ → ℕ → ℝ → ℕ
  | [], _, best, _ => best
  | x :: xs, i, best, m =>
    if m < x then argmaxGo xs (i + 1) i x else argmaxGo xs (i + 1) best m

/-- np.argmax: index of the first occurrence of the maximum (0 on the empty
list, where numpy would raise). -/
noncomputable def argmaxIdx : List ℝ → ℕ
  | [] => 0
  | x :: xs => argmaxGo xs 1 0 x

/-- UCB.select_arm: return the first unpulled arm not in pending, adding it
to pending; once no arm qualifies, return the argmax of the UCB scores. -/
noncomputable def UCB.selectArm (s : UCBState) : ℕ × UCBState :=
  match UCB.warmupArm s with
  | some a => (a, { s with pending := insert (a : ℤ) s.pending })
  | none => (argmaxIdx (UCB.scores s), s)

/-- UCB.update: discard the arm from pending first (this mutation survives
even if the base update then raises), then delegate to BaseAgent.update. -/
def UCB.update (s : UCBState) (arm : ℤ) (reward : ℚ) :
    UCBState × Option PyErr :=
  let s1 : UCBState := { s with pending := s.pending.erase arm }
  match BaseAgent.update s1.toAgentState arm reward with
  | (_, some err) => (s1, some err)
  | (b, none) => ({ s1 with toAgentState := b }, none)

/-- UCB.save_state calls super().save_state(filepath, c=...), passing the
extra keyword argument c. -/
def UCB.saveState (s : UCBState) : Except PyErr SavedRecord :=
  BaseAgent.saveState s.toAgentState ["c"]

/-- Iterated select_arm without interleaved updates: the list of returned
arm indices and the final state. -/
noncomputable def UCB.selectMany (s : UCBState) : ℕ → List ℕ × UCBState
  | 0 => ([], s)
  | k + 1 =>
    let p := UCB.selectArm s
    let rest := UCB.selectMany p.2 k
    (p.1 :: rest.1, rest.2)

/-! ## ThompsonSampling -/

/-- ThompsonSampling state: the base statistics plus the Beta parameters. -/
structure TSState extends AgentState where
  alpha : List ℚ
  beta : List ℚ
  deriving DecidableEq, Repr

/-- ThompsonSampling constructor: alpha and beta both start as all ones. -/
def ThompsonSampling.init (n : ℕ) (names : List String) : TSState :=
  { toAgentState := BaseAgent.init n names
    alpha := List.replicate n 1
    beta := List.replicate n 1 }

/-- ThompsonSampling.update: delegate to the base update, then draw u and
run one Bernoulli trial: if reward > u increment alpha[arm], else increment
beta[arm]. The base update resolves the same index the Beta update then
uses; if it raises, alpha and beta stay untouched. -/
def ThompsonSampling.update (s : TSState) (arm : ℤ) (reward : ℚ) (u : ℚ) :
    TSState × Option PyErr :=
  match npIndex s.n_arms arm with
  | none => (s, some .indexError)
  | some a =>
    let b := BaseAgent.updateAt s.toAgentState a reward
    if u < reward then
      ({ s with toAgentState := b, alpha := s.alpha.set a (s.alpha.getD a 0 + 1) }, none)
    else
      ({ s with toAgentState := b, beta := s.beta.set a (s.beta.getD a 0 + 1) }, none)

/-- ThompsonSampling.save_state calls
super().save_state(filepath, alpha=..., beta=...), passing two extra
keyword arguments. -/
def ThompsonSampling.saveState (s : TSState) : Except PyErr SavedRecord :=
  BaseAgent.saveState s.toAgentState ["alpha", "beta"]

/-! ## ExperimentManager -/

/-- The closed set of agents the manager can hold. -/
inductive Agent where
  | eg (s : EGState)
  | ucbA (s : UCBState)
  | ts (s : TSState)

/-- Dispatch of save_state over the agent variants. -/
def Agent.saveState : Agent → Except PyErr SavedRecord
  | .eg s => EpsilonGreedy.saveState s
  | .ucbA s => UCB.saveState s
  | .ts s => ThompsonSampling.saveState s

/-- Dispatch of update over the agent variants. The draw u is consumed only
by ThompsonSampling. -/
def Agent.update (a : Agent) (arm : ℤ) (reward : ℚ) (u : ℚ) :
    Agent × Option PyErr :=
  match a with
  | .eg s =>
    match EpsilonGreedy.update s arm reward with
    | (s2, err) => (.eg s2, err)
  | .ucbA s =>
    match UCB.update s arm reward with
    | (s2, err) => (.ucbA s2, err)
  | .ts s =>
    match ThompsonSampling.update s arm reward u with
    | (s2, err) => (.ts s2, err)

/-- The registry: the experiments dict of ExperimentManager, keyed by
experiment name (created_at and the storage path play no part in any
claim). -/
structure Manager where
  experiments : List (String × Agent)

/-- A manager with no experiments. -/
def Manager.empty : Manager := { experiments := [] }

/-- In-place replacement of the agent bound to a key, as mutating the agent
object held by the Python dict does. -/
def replaceAssoc (l : List (String × Agent)) (k : String) (v : Agent) :
    List (String × Agent) :=
  l.map (fun p => if p.1 = k then (k, v) else p)

/-- ExperimentManager.create_experiment: reject a taken name, dispatch on
the algorithm tag (the Python str-enum compares equal to its value string),
reject an unrecognized tag, register the agent in the dict, then persist via
_save_experiment, whose agent.save_state call is what raises. The entry
stays registered when the save raises, exactly as the Python dict write
precedes the raise. -/
def Manager.createExperiment (m : Manager) (name : String) (arms : List String)
    (algorithm : String) (epsilon : ℚ) (c : ℚ) : Manager × Option PyErr :=
  if (m.experiments.lookup name).isSome then (m, some (.alreadyExists name))
  else
    let n := arms.length
    let agentOpt : Option Agent :=
      if algorithm = "epsilon_greedy" then some (.eg (EpsilonGreedy.init n epsilon arms))
      else if algorithm = "thompson_sampling" then some (.ts (ThompsonSampling.init n arms))
      else if algorithm = "ucb" then some (.ucbA (UCB.init n c arms))
      else none
    match agentOpt with
    | none => (m, some .unknownAlgorithm)
    | some agent =>
      let m2 : Manager := { experiments := (name, agent) :: m.experiments }
      match Agent.saveState agent with
      | .error err => (m2, some err)
      | .ok _ => (m2, none)

/-- ExperimentManager.update_reward: look the experiment up (ValueError if
unknown), run agent.update, then persist via _save_experiment. Any
mutation the agent performed before a raise stays visible in the dict. -/
def Manager.updateReward (m : Manager) (name : String) (arm : ℤ)
    (reward : ℚ) (u : ℚ) : Manager × Option PyErr :=
  match m.experiments.lookup name with
  | none => (m, some (.notFound name))
  | some agent =>
    match Agent.update agent arm reward u with
    | (agent2, some err) =>
      ({ experiments := replaceAssoc m.experiments name agent2 }, some err)
    | (agent2, none) =>
      let m2 : Manager := { experiments := replaceAssoc m.experiments name agent2 }
      match Agent.saveState agent2 with
      | .error err => (m2, some err)
      | .ok _ => (m2, none)

end MAB

namespace MAB

/-! ## Shared helper lemmas -/

/-- Every agent variant passes extra keyword arguments to
BaseAgent.save_state, so every save raises TypeError. -/
theorem agent_saveState_err (a : Agent) : a.saveState = .error .typeError := by
  cases a <;> rfl

end MAB

namespace MAB

/-- C2: for every algorithm, save_state raises TypeError because the
subclass forwards algorithm-specific keyword arguments to
BaseAgent.save_state, whose signature accepts only a filepath; hence
ExperimentManager.create_experiment and ExperimentManager.update_reward,
which call _save_experiment after mutating in-memory state, never return
successfully. -/
theorem save_state_always_raises_type_error :
    (∀ s : EGState, EpsilonGreedy.saveState s = .error .typeError) ∧
    (∀ s : UCBState, UCB.saveState s = .error .typeError) ∧
    (∀ s : TSState, ThompsonSampling.saveState s = .error .typeError) ∧
    (∀ (m : Manager) (name : String) (arms : List String) (algorithm : String)
        (epsilon c : ℚ),
      (Manager.createExperiment m name arms algorithm epsilon c).2.isSome = true) ∧
    (∀ (m : Manager) (name : String) (arm : ℤ) (reward u : ℚ),
      (Manager.updateReward m name arm reward u).2.isSome = true) := by
  refine ⟨fun s => rfl, fun s => rfl, fun s => rfl, ?_, ?_⟩
  · intro m name arms algorithm epsilon c
    by_cases h1 : (m.experiments.lookup name).isSome <;>
      by_cases h2 : algorithm = "epsilon_greedy" <;>
        by_cases h3 : algorithm = "thompson_sampling" <;>
          by_cases h4 : algorithm = "ucb" <;>
            simp [Manager.createExperiment, h1, h2, h3, h4, agent_saveState_err]
  · intro m name arm reward u
    unfold Manager.updateReward
    split
    · rfl
    · split
      · rfl
      · simp [agent_saveState_err]

/-- C1: saving agent state is impossible as written: for each of the three
algorithms, save_state on a freshly constructed agent raises TypeError,
so the save/load round trip can never be exercised. -/
theorem save_load_round_trip_unreachable :
    EpsilonGreedy.saveState (EpsilonGreedy.init 2 (1 / 10) ["A", "B"]) =
      .error .typeError ∧
    UCB.saveState (UCB.init 2 2 ["A", "B"]) = .error .typeError ∧
    ThompsonSampling.saveState (ThompsonSampling.init 2 ["A", "B"]) =
      .error .typeError :=
  ⟨rfl, rfl, rfl⟩

/-- C8 counterexample: on a 3-arm agent, update with arm index -1 does not
fail at all — numpy wrap-around indexing silently updates the last arm, so
the state changes and no error is raised. -/
theorem update_negative_arm_succeeds_and_mutates :
    (BaseAgent.update (BaseAgent.init 3 ["A", "B", "C"]) (-1) 1).2 = none ∧
    (BaseAgent.update (BaseAgent.init 3 ["A", "B", "C"]) (-1) 1).1.counts =
      [0, 0, 1] := by
  constructor <;> rfl

/-- C8 amended: update performs no explicit range validation. For
arm ≥ n_arms or arm < -n_arms the indexing of counts raises IndexError
(the first statement of the body), leaving every field unchanged; for
0 ≤ arm < n_arms it updates arm; for -n_arms ≤ arm < 0 it silently
updates arm n_arms + arm. -/
theorem update_range_behavior :
    (∀ (s : AgentState) (arm : ℤ) (reward : ℚ),
        ((s.n_arms : ℤ) ≤ arm ∨ arm < -(s.n_arms : ℤ)) →
        BaseAgent.update s arm reward = (s, some .indexError)) ∧
    (∀ (s : AgentState) (arm : ℤ) (reward : ℚ),
        0 ≤ arm → arm < (s.n_arms : ℤ) →
        BaseAgent.update s arm reward =
          (BaseAgent.updateAt s arm.toNat reward, none)) ∧
    (∀ (s : AgentState) (arm : ℤ) (reward : ℚ),
        -(s.n_arms : ℤ) ≤ arm → arm < 0 →
        BaseAgent.update s arm reward =
          (BaseAgent.updateAt s (arm + (s.n_arms : ℤ)).toNat reward, none)) := by
  refine ⟨?_, ?_, ?_⟩
  · intro s arm reward h
    have h1 : ¬ (0 ≤ arm ∧ arm < (s.n_arms : ℤ)) := by omega
    have h2 : ¬ (-(s.n_arms : ℤ) ≤ arm ∧ arm < 0) := by omega
    simp [BaseAgent.update, npIndex, h1, h2]
  · intro s arm reward h0 h1
    simp [BaseAgent.update, npIndex, And.intro h0 h1]
  · intro s arm reward h0 h1
    have h2 : ¬ (0 ≤ arm ∧ arm < (s.n_arms : ℤ)) := by omega
    simp [BaseAgent.update, npIndex, h2, And.intro h0 h1]

/-- Witness for the amended C8 statement at concrete inputs: arm 5 on a
3-arm agent raises IndexError with the state unchanged, arm 1 updates
arm 1, arm -2 silently updates arm 1. -/
theorem update_range_behavior_witness :
    BaseAgent.update (BaseAgent.init 3 ["A", "B", "C"]) 5 1 =
      (BaseAgent.init 3 ["A", "B", "C"], some .indexError) ∧
    BaseAgent.update (BaseAgent.init 3 ["A", "B", "C"]) 1 1 =
      (BaseAgent.updateAt (BaseAgent.init 3 ["A", "B", "C"]) 1 1, none) ∧
    BaseAgent.update (BaseAgent.init 3 ["A", "B", "C"]) (-2) 1 =
      (BaseAgent.updateAt (BaseAgent.init 3 ["A", "B", "C"]) 1 1, none) := by
  refine ⟨?_, ?_, ?_⟩
  · exact update_range_behavior.1 _ 5 1 (by decide)
  · exact update_range_behavior.2.1 _ 1 1 (by decide) (by decide)
  · exact update_range_behavior.2.2 _ (-2) 1 (by decide) (by decide)

end MAB

namespace MAB

/-! ## Update histories and statistics invariants -/

/-- A finite sequence of valid updates applied through the resolved-index
body of BaseAgent.update. -/
def runUpdates (s : AgentState) (l : List (ℕ × ℚ)) : AgentState :=
  l.foldl (fun t p => BaseAgent.updateAt t p.1 p.2) s

/-- The rewards a history observed on one arm, in order. -/
def armRewards (a : ℕ) (l : List (ℕ × ℚ)) : List ℚ :=
  (l.filter (fun p => decide (p.1 = a))).map Prod.snd

theorem armRewards_cons (i : ℕ) (x : ℕ × ℚ) (xs : List (ℕ × ℚ)) :
    armRewards i (x :: xs) =
      if x.1 = i then x.2 :: armRewards i xs else armRewards i xs := by
  by_cases h : x.1 = i <;> simp [armRewards, List.filter_cons, h]

theorem armRewards_append (i : ℕ) (l1 l2 : List (ℕ × ℚ)) :
    armRewards i (l1 ++ l2) = armRewards i l1 ++ armRewards i l2 := by
  simp [armRewards]

theorem armRewards_single_self (a : ℕ) (r : ℚ) : armRewards a [(a, r)] = [r] := by
  simp [armRewards]

theorem armRewards_single_ne (i a : ℕ) (r : ℚ) (h : a ≠ i) :
    armRewards i [(a, r)] = [] := by
  simp [armRewards, h]

theorem getD_set_self {α : Type} (l : List α) (i : ℕ) (v d : α)
    (h : i < l.length) : (l.set i v).getD i d = v := by
  induction l generalizing i with
  | nil => simp at h
  | cons x xs ih =>
    cases i with
    | zero => rfl
    | succ j => simpa using ih j (by simpa using h)

theorem getD_set_ne {α : Type} (l : List α) (i j : ℕ) (v d : α)
    (h : i ≠ j) : (l.set i v).getD j d = l.getD j d := by
  induction l generalizing i j with
  | nil => simp
  | cons x xs ih =>
    cases i with
    | zero =>
      cases j with
      | zero => exact absurd rfl h
      | succ k => simp
    | succ i2 =>
      cases j with
      | zero => simp
      | succ k => simpa using ih i2 k (by omega)

theorem sum_set_succ (l : List ℕ) (i : ℕ) (h : i < l.length) :
    (l.set i (l.getD i 0 + 1)).sum = l.sum + 1 := by
  induction l generalizing i with
  | nil => simp at h
  | cons x xs ih =>
    cases i with
    | zero =>
      simp only [List.set, List.getD_cons_zero, List.sum_cons]
      omega
    | succ j =>
      have := ih j (by simpa using h)
      simp only [List.set, List.getD_cons_succ, List.sum_cons, this]
      omega

theorem getD_replicate {α : Type} (x : α) (n b : ℕ) :
    (List.replicate n x).getD b x = x := by
  rcases lt_or_ge b n with h | h
  · rw [List.getD_eq_getElem _ _ (by simpa using h)]
    simp
  · rw [List.getD_eq_default _ _ (by simpa using h)]

/-- The relation between an agent state and the history of valid updates
that produced it from a fresh n-arm agent. -/
def histInv (n : ℕ) (s : AgentState) (l : List (ℕ × ℚ)) : Prop :=
  s.n_arms = n ∧
  s.counts.length = n ∧
  s.values.length = n ∧
  s.total_pulls = l.length ∧
  s.total_reward = (l.map Prod.snd).sum ∧
  s.counts.sum = l.length ∧
  (∀ b, b < n → s.counts.getD b 0 = (armRewards b l).length) ∧
  (∀ b, b < n → (s.counts.getD b 0 : ℚ) * s.values.getD b 0 = (armRewards b l).sum) ∧
  (∀ b, b < n → s.counts.getD b 0 = 0 → s.values.getD b 0 = 0)

theorem histInv_init (n : ℕ) (names : List String) :
    histInv n (BaseAgent.init n names) [] := by
  refine ⟨rfl, by simp [BaseAgent.init], by simp [BaseAgent.init], rfl, rfl,
    by simp [BaseAgent.init], ?_, ?_, ?_⟩ <;>
    intro b hb <;>
    simp [BaseAgent.init, armRewards, getD_replicate]

theorem histInv_step {n : ℕ} {s : AgentState} {l : List (ℕ × ℚ)} (a : ℕ) (r : ℚ)
    (ha : a < n) (h : histInv n s l) :
    histInv n (BaseAgent.updateAt s a r) (l ++ [(a, r)]) := by
  obtain ⟨hn, hcl, hvl, hp, hr, hcs, hcount, hmean, hzero⟩ := h
  have hal : a < s.counts.length := by rw [hcl]; exact ha
  have hav : a < s.values.length := by rw [hvl]; exact ha
  have hne : ((s.counts.getD a 0 : ℚ) + 1) ≠ 0 := by positivity
  have hcnew : (BaseAgent.updateAt s a r).counts =
      s.counts.set a (s.counts.getD a 0 + 1) := rfl
  have hvnew : (BaseAgent.updateAt s a r).values =
      s.values.set a
        ((((s.counts.getD a 0 + 1 : ℕ) : ℚ) - 1) / ((s.counts.getD a 0 + 1 : ℕ) : ℚ) *
            s.values.getD a 0 +
          1 / ((s.counts.getD a 0 + 1 : ℕ) : ℚ) * r) := rfl
  refine ⟨hn, ?_, ?_, ?_, ?_, ?_, ?_, ?_, ?_⟩
  · rw [hcnew, List.length_set]; exact hcl
  · rw [hvnew, List.length_set]; exact hvl
  · show s.total_pulls + 1 = (l ++ [(a, r)]).length
    simp [hp]
  · show s.total_reward + r = ((l ++ [(a, r)]).map Prod.snd).sum
    simp [hr]
  · rw [hcnew, sum_set_succ s.counts a hal, hcs]
    simp
  · intro b hb
    rw [hcnew]
    by_cases hba : b = a
    · subst hba
      rw [getD_set_self _ _ _ _ hal, armRewards_append, armRewards_single_self,
        List.length_append, List.length_cons, List.length_nil, hcount b hb]
    · have hab : a ≠ b := fun hh => hba hh.symm
      rw [getD_set_ne _ _ _ _ _ hab, armRewards_append,
        armRewards_single_ne b a r hab, List.append_nil]
      exact hcount b hb
  · intro b hb
    rw [hcnew, hvnew]
    by_cases hba : b = a
    · subst hba
      rw [getD_set_self _ _ _ _ hal, getD_set_self _ _ _ _ hav,
        armRewards_append, armRewards_single_self]
      have hm := hmean b hb
      rw [List.sum_append, List.sum_cons, List.sum_nil, ← hm]
      push_cast
      field_simp
    · have hab : a ≠ b := fun hh => hba hh.symm
      rw [getD_set_ne _ _ _ _ _ hab, getD_set_ne _ _ _ _ _ hab,
        armRewards_append, armRewards_single_ne b a r hab, List.append_nil]
      exact hmean b hb
  · intro b hb
    rw [hcnew, hvnew]
    by_cases hba : b = a
    · subst hba
      rw [getD_set_self _ _ _ _ hal]
      omega
    · have hab : a ≠ b := fun hh => hba hh.symm
      rw [getD_set_ne _ _ _ _ _ hab, getD_set_ne _ _ _ _ _ hab]
      exact hzero b hb

theorem histInv_run {n : ℕ} (l : List (ℕ × ℚ)) :
    ∀ (s : AgentState) (hist : List (ℕ × ℚ)), (∀ p ∈ l, p.1 < n) →
      histInv n s hist → histInv n (runUpdates s l) (hist ++ l) := by
  induction l with
  | nil => intro s hist _ h; simpa [runUpdates] using h
  | cons x xs ih =>
    intro s hist hv h
    have hx : x.1 < n := hv x (by simp)
    have h1 := histInv_step x.1 x.2 hx h
    have h2 := ih (BaseAgent.updateAt s x.1 x.2) (hist ++ [(x.1, x.2)])
      (fun p hp => hv p (by simp [hp])) h1
    simpa [runUpdates, List.append_assoc] using h2

theorem armRewards_partition (n : ℕ) (l : List (ℕ × ℚ)) (h : ∀ p ∈ l, p.1 < n) :
    ∑ i in Finset.range n, (armRewards i l).sum = (l.map Prod.snd).sum := by
  induction l with
  | nil => simp [armRewards]
  | cons x xs ih =>
    have hx : x.1 < n := h x (by simp)
    have ihx := ih (fun p hp => h p (by simp [hp]))
    have key : ∀ i ∈ Finset.range n, (armRewards i (x :: xs)).sum =
        (if i = x.1 then x.2 else 0) + (armRewards i xs).sum := by
      intro i _
      rw [armRewards_cons]
      by_cases hix : x.1 = i
      · subst hix; simp
      · have hxi : i ≠ x.1 := fun hh => hix hh.symm
        simp [hix, hxi]
    rw [Finset.sum_congr rfl key, Finset.sum_add_distrib, ihx,
      Finset.sum_ite_eq' (Finset.range n) x.1 (fun _ => x.2)]
    simp [Finset.mem_range.mpr hx]

end MAB

namespace MAB

theorem update_natCast (s : AgentState) (a : ℕ) (reward : ℚ) (ha : a < s.n_arms) :
    BaseAgent.update s (a : ℤ) reward = (BaseAgent.updateAt s a reward, none) := by
  have h0 : (0 : ℤ) ≤ (a : ℤ) := Int.natCast_nonneg a
  have h1 : (a : ℤ) < (s.n_arms : ℤ) := by exact_mod_cast ha
  simp [BaseAgent.update, npIndex, h0, h1]

/-- C3: update on a valid arm increments counts[arm] and total_pulls, adds
the reward to total_reward, rewrites values[arm] to
values[arm] + (reward - values[arm]) / counts[arm] with the incremented
count, leaves every other arm untouched, and over any finite history of
valid updates values[arm] is exactly the arithmetic mean of the rewards
observed on that arm. -/
theorem update_is_incremental_mean :
    (∀ (s : AgentState) (a : ℕ) (reward : ℚ),
        a < s.n_arms → s.counts.length = s.n_arms → s.values.length = s.n_arms →
        BaseAgent.update s (a : ℤ) reward = (BaseAgent.updateAt s a reward, none) ∧
        (BaseAgent.updateAt s a reward).counts.getD a 0 = s.counts.getD a 0 + 1 ∧
        (∀ b, b ≠ a →
          (BaseAgent.updateAt s a reward).counts.getD b 0 = s.counts.getD b 0) ∧
        (BaseAgent.updateAt s a reward).total_pulls = s.total_pulls + 1 ∧
        (BaseAgent.updateAt s a reward).total_reward = s.total_reward + reward ∧
        (BaseAgent.updateAt s a reward).values.getD a 0 =
          s.values.getD a 0 +
            (reward - s.values.getD a 0) / ((s.counts.getD a 0 : ℚ) + 1) ∧
        (∀ b, b ≠ a →
          (BaseAgent.updateAt s a reward).values.getD b 0 = s.values.getD b 0)) ∧
    (∀ (n : ℕ) (names : List String) (l : List (ℕ × ℚ)) (a : ℕ),
        (∀ p ∈ l, p.1 < n) → a < n → armRewards a l ≠ [] →
        (runUpdates (BaseAgent.init n names) l).values.getD a 0 =
          (armRewards a l).sum / ((armRewards a l).length : ℚ)) := by
  constructor
  · intro s a reward ha hcl hvl
    have hal : a < s.counts.length := by rw [hcl]; exact ha
    have hav : a < s.values.length := by rw [hvl]; exact ha
    have hne : ((s.counts.getD a 0 : ℚ) + 1) ≠ 0 := by positivity
    have hcnew : (BaseAgent.updateAt s a reward).counts =
        s.counts.set a (s.counts.getD a 0 + 1) := rfl
    have hvnew : (BaseAgent.updateAt s a reward).values =
        s.values.set a
          ((((s.counts.getD a 0 + 1 : ℕ) : ℚ) - 1) / ((s.counts.getD a 0 + 1 : ℕ) : ℚ) *
              s.values.getD a 0 +
            1 / ((s.counts.getD a 0 + 1 : ℕ) : ℚ) * reward) := rfl
    refine ⟨update_natCast s a reward ha, ?_, ?_, rfl, rfl, ?_, ?_⟩
    · rw [hcnew, getD_set_self _ _ _ _ hal]
    · intro b hba
      rw [hcnew, getD_set_ne _ _ _ _ _ (fun hh => hba (hh.symm))]
    · rw [hvnew, getD_set_self _ _ _ _ hav]
      push_cast
      field_simp
      ring
    · intro b hba
      rw [hvnew, getD_set_ne _ _ _ _ _ (fun hh => hba (hh.symm))]
  · intro n names l a hv ha hne
    have h := histInv_run l (BaseAgent.init n names) [] hv (histInv_init n names)
    rw [List.nil_append] at h
    obtain ⟨-, -, -, -, -, -, hcount, hmean, -⟩ := h
    have hm := hmean a ha
    rw [hcount a ha] at hm
    have hlen : ((armRewards a l).length : ℚ) ≠ 0 := by
      have hl0 : (armRewards a l).length ≠ 0 :=
        fun h0 => hne (List.length_eq_zero.mp h0)
      exact_mod_cast hl0
    rw [eq_div_iff hlen, mul_comm]
    exact hm

/-- Witness for C3 at concrete inputs: one valid update on a fresh 2-arm
agent, and the running mean after the history [(0, 1), (0, 0)]. -/
theorem update_is_incremental_mean_witness :
    BaseAgent.update (BaseAgent.init 2 ["A", "B"]) ((0 : ℕ) : ℤ) 1 =
      (BaseAgent.updateAt (BaseAgent.init 2 ["A", "B"]) 0 1, none) ∧
    (runUpdates (BaseAgent.init 2 ["A", "B"]) [(0, 1), (0, 0)]).values.getD 0 0 =
      (armRewards 0 [(0, 1), (0, 0)]).sum /
        ((armRewards 0 [(0, 1), (0, 0)]).length : ℚ) := by
  constructor
  · exact (update_is_incremental_mean.1 (BaseAgent.init 2 ["A", "B"]) 0 1
      (by decide) (by decide) (by decide)).1
  · exact update_is_incremental_mean.2 2 ["A", "B"] [(0, 1), (0, 0)] 0
      (by decide) (by decide) (by decide)

/-- C4: after any sequence of k valid updates from the initial state,
total_pulls = k = sum of counts, total_reward is the sum over arms of
counts[i] * values[i] (exactly, in rational arithmetic), and an arm with
zero count still has value zero. -/
theorem run_invariants (n : ℕ) (names : List String) (l : List (ℕ × ℚ))
    (hv : ∀ p ∈ l, p.1 < n) :
    (runUpdates (BaseAgent.init n names) l).total_pulls = l.length ∧
    (runUpdates (BaseAgent.init n names) l).counts.sum = l.length ∧
    (runUpdates (BaseAgent.init n names) l).total_reward =
      ∑ i in Finset.range n,
        ((runUpdates (BaseAgent.init n names) l).counts.getD i 0 : ℚ) *
          (runUpdates (BaseAgent.init n names) l).values.getD i 0 ∧
    ∀ i, i < n → (runUpdates (BaseAgent.init n names) l).counts.getD i 0 = 0 →
      (runUpdates (BaseAgent.init n names) l).values.getD i 0 = 0 := by
  have h := histInv_run l (BaseAgent.init n names) [] hv (histInv_init n names)
  rw [List.nil_append] at h
  obtain ⟨-, -, -, hp, hr, hcs, -, hmean, hzero⟩ := h
  refine ⟨hp, hcs, ?_, hzero⟩
  rw [hr, ← armRewards_partition n l hv]
  exact Finset.sum_congr rfl (fun i hi => (hmean i (Finset.mem_range.mp hi)).symm)

/-- Witness for C4 at a concrete two-update history. -/
theorem run_invariants_witness :
    (runUpdates (BaseAgent.init 2 ["A", "B"]) [(0, 1), (1, 1 / 2)]).total_pulls = 2 :=
  (run_invariants 2 ["A", "B"] [(0, 1), (1, 1 / 2)] (by decide)).1

/-- C9 counterexample: creating an experiment with a single arm is not
rejected with InvalidConfig; the call raises TypeError out of the persist
step, and the experiment is nevertheless registered in the directory. -/
theorem create_single_arm_not_invalid_config :
    (Manager.createExperiment Manager.empty "exp" ["A"] "epsilon_greedy"
        (1 / 10) 2).2 = some .typeError ∧
    ((Manager.createExperiment Manager.empty "exp" ["A"] "epsilon_greedy"
        (1 / 10) 2).1.experiments.lookup "exp").isSome = true := by
  constructor <;> rfl

/-- C9 amended: create_experiment rejects a taken name with the
already-exists ValueError and an unrecognized algorithm tag with the
unknown-algorithm ValueError; it performs no validation of the arm count or
of arm-name uniqueness; for any recognized algorithm it constructs the
agent and registers it under the name, and the subsequent persist of the
initial state raises TypeError, so creation never returns successfully. -/
theorem create_experiment_behavior :
    (∀ (m : Manager) (name : String) (arms : List String) (algorithm : String)
        (epsilon c : ℚ), (m.experiments.lookup name).isSome = true →
        Manager.createExperiment m name arms algorithm epsilon c =
          (m, some (.alreadyExists name))) ∧
    (∀ (m : Manager) (name : String) (arms : List String) (algorithm : String)
        (epsilon c : ℚ), (m.experiments.lookup name).isSome = false →
        algorithm ≠ "epsilon_greedy" → algorithm ≠ "thompson_sampling" →
        algorithm ≠ "ucb" →
        Manager.createExperiment m name arms algorithm epsilon c =
          (m, some .unknownAlgorithm)) ∧
    (∀ (m : Manager) (name : String) (arms : List String) (epsilon c : ℚ),
        (m.experiments.lookup name).isSome = false →
        Manager.createExperiment m name arms "epsilon_greedy" epsilon c =
          ({ experiments :=
              (name, .eg (EpsilonGreedy.init arms.length epsilon arms)) ::
                m.experiments },
            some .typeError)) ∧
    (∀ (m : Manager) (name : String) (arms : List String) (epsilon c : ℚ),
        (m.experiments.lookup name).isSome = false →
        Manager.createExperiment m name arms "thompson_sampling" epsilon c =
          ({ experiments :=
              (name, .ts (ThompsonSampling.init arms.length arms)) ::
                m.experiments },
            some .typeError)) ∧
    (∀ (m : Manager) (name : String) (arms : List String) (epsilon c : ℚ),
        (m.experiments.lookup name).isSome = false →
        Manager.createExperiment m name arms "ucb" epsilon c =
          ({ experiments :=
              (name, .ucbA (UCB.init arms.length c arms)) :: m.experiments },
            some .typeError)) := by
  refine ⟨?_, ?_, ?_, ?_, ?_⟩
  · intro m name arms algorithm epsilon c h1
    simp [Manager.createExperiment, h1]
  · intro m name arms algorithm epsilon c h1 h2 h3 h4
    simp [Manager.createExperiment, h1, h2, h3, h4]
  · intro m name arms epsilon c h1
    simp [Manager.createExperiment, h1, Agent.saveState, EpsilonGreedy.saveState,
      BaseAgent.saveState]
  · intro m name arms epsilon c h1
    simp [Manager.createExperiment, h1, Agent.saveState,
      ThompsonSampling.saveState, BaseAgent.saveState]
  · intro m name arms epsilon c h1
    simp [Manager.createExperiment, h1, Agent.saveState, UCB.saveState,
      BaseAgent.saveState]

/-- Witness for the amended C9 at concrete inputs. -/
theorem create_experiment_behavior_witness :
    Manager.createExperiment Manager.empty "e" ["A", "B"] "bandit" (1 / 10) 2 =
      (Manager.empty, some .unknownAlgorithm) ∧
    Manager.createExperiment Manager.empty "e" ["A", "B"] "ucb" (1 / 10) 2 =
      ({ experiments :=
          ("e", .ucbA (UCB.init (["A", "B"] : List String).length 2 ["A", "B"])) ::
            Manager.empty.experiments },
        some .typeError) := by
  constructor
  · exact create_experiment_behavior.2.1 Manager.empty "e" ["A", "B"] "bandit"
      (1 / 10) 2 (by rfl) (by decide) (by decide) (by decide)
  · exact create_experiment_behavior.2.2.2.2 Manager.empty "e" ["A", "B"]
      (1 / 10) 2 (by rfl)

end MAB

namespace MAB

/-! ## EpsilonGreedy selection -/

theorem foldl_max_le_init (ys : List ℚ) (a : ℚ) : a ≤ ys.foldl max a := by
  induction ys generalizing a with
  | nil => exact le_rfl
  | cons y ys ih => exact le_trans (le_max_left a y) (ih (max a y))

theorem foldl_max_mem_le (ys : List ℚ) (a x : ℚ) (hx : x ∈ ys) :
    x ≤ ys.foldl max a := by
  induction ys generalizing a with
  | nil => simp at hx
  | cons y ys ih =>
    rcases List.mem_cons.mp hx with h | h
    · subst h
      exact le_trans (le_max_right a x) (foldl_max_le_init ys (max a x))
    · exact ih (max a y) h

theorem foldl_max_mem (ys : List ℚ) (a : ℚ) : ys.foldl max a ∈ a :: ys := by
  induction ys generalizing a with
  | nil => simp
  | cons y ys ih =>
    have h := ih (max a y)
    rw [List.foldl_cons]
    rcases List.mem_cons.mp h with h1 | h1
    · rcases max_choice a y with hm | hm
      · rw [h1, hm]
        exact List.mem_cons_self a (y :: ys)
      · rw [h1, hm]
        exact List.mem_cons.mpr (Or.inr (List.mem_cons_self y ys))
    · exact List.mem_cons.mpr (Or.inr (List.mem_cons.mpr (Or.inr h1)))

theorem le_npMax (l : List ℚ) (x : ℚ) (hx : x ∈ l) : x ≤ npMax l := by
  match l with
  | y :: ys =>
    rcases List.mem_cons.mp hx with h | h
    · subst h; exact foldl_max_le_init ys x
    · exact foldl_max_mem_le ys y x h

theorem npMax_mem (l : List ℚ) (hl : l ≠ []) : npMax l ∈ l := by
  match l with
  | y :: ys => exact foldl_max_mem ys y

theorem filter_range_eq_single (n b : ℕ) (p : ℕ → Bool) (hb : b < n)
    (hp : ∀ i, i < n → (p i = true ↔ i = b)) :
    (List.range n).filter p = [b] := by
  induction n with
  | zero => omega
  | succ n ih =>
    rw [List.range_succ, List.filter_append]
    by_cases hbn : b = n
    · subst hbn
      have hnil : (List.range b).filter p = [] := by
        rw [List.filter_eq_nil]
        intro i hi
        have hib : i < b := List.mem_range.mp hi
        intro hpi
        exact absurd ((hp i (by omega)).mp hpi) (by omega)
      have hpn : p b = true := (hp b (by omega)).mpr rfl
      simp [hnil, hpn]
    · have hpn : p n = false := by
        rcases Bool.eq_false_or_eq_true (p n) with h | h
        · exact absurd ((hp n (by omega)).mp h) (fun hh => hbn hh.symm)
        · exact h
      rw [ih (by omega) (fun i hi => hp i (by omega))]
      simp [hpn]

/-- C6: select_arm explores to the drawn arm index when the uniform draw is
below epsilon; otherwise it returns the element of best_arms picked by the
tie-break draw, where best_arms is exactly the set of arms whose value
attains the maximum; and with epsilon = 0 and a strict maximum at arm b,
every call returns b regardless of all random draws. -/
theorem eg_select_arm_spec :
    (∀ (s : EGState) (u : ℚ) (e t : ℕ), u < s.epsilon → e < s.n_arms →
        EpsilonGreedy.selectArm s u e t = e) ∧
    (∀ (s : EGState) (u : ℚ) (e t : ℕ), ¬ u < s.epsilon →
        t < (EpsilonGreedy.bestArms s).length →
        EpsilonGreedy.selectArm s u e t = (EpsilonGreedy.bestArms s).getD t 0 ∧
        EpsilonGreedy.selectArm s u e t ∈ EpsilonGreedy.bestArms s ∧
        (∀ i, i ∈ EpsilonGreedy.bestArms s ↔
          i < s.n_arms ∧ s.values.getD i 0 = npMax s.values)) ∧
    (∀ (s : EGState) (u : ℚ) (e t : ℕ) (b : ℕ), s.epsilon = 0 → 0 ≤ u →
        s.values.length = s.n_arms → b < s.n_arms →
        (∀ j, j < s.n_arms → j ≠ b → s.values.getD j 0 < s.values.getD b 0) →
        EpsilonGreedy.selectArm s u e t = b) := by
  refine ⟨?_, ?_, ?_⟩
  · intro s u e t hu he
    simp [EpsilonGreedy.selectArm, hu]
  · intro s u e t hu ht
    have hmod : t % (EpsilonGreedy.bestArms s).length = t := Nat.mod_eq_of_lt ht
    refine ⟨by simp [EpsilonGreedy.selectArm, hu, hmod], ?_, ?_⟩
    · simp only [EpsilonGreedy.selectArm, if_neg hu, hmod]
      rw [List.getD_eq_getElem _ _ ht]
      exact List.getElem_mem ht
    · intro i
      simp [EpsilonGreedy.bestArms, List.mem_filter, List.mem_range]
  · intro s u e t b heps hu hlen hb hstrict
    have hune : ¬ u < s.epsilon := by rw [heps]; exact not_lt.mpr hu
    have hbl : b < s.values.length := by rw [hlen]; exact hb
    have hvb : s.values.getD b 0 ∈ s.values := by
      rw [List.getD_eq_getElem _ _ hbl]
      exact List.getElem_mem hbl
    have hnil : s.values ≠ [] := by
      intro h0
      rw [h0] at hbl
      simp at hbl
    have hle : ∀ x ∈ s.values, x ≤ s.values.getD b 0 := by
      intro x hx
      obtain ⟨⟨j, hj⟩, hxj⟩ := List.mem_iff_get.mp hx
      rw [← hxj, ← List.getD_eq_get s.values 0 hj]
      by_cases hjb : j = b
      · subst hjb; exact le_rfl
      · exact le_of_lt (hstrict j (by omega) hjb)
    have hmax : npMax s.values = s.values.getD b 0 :=
      le_antisymm (hle _ (npMax_mem s.values hnil)) (le_npMax _ _ hvb)
    have hba : EpsilonGreedy.bestArms s = [b] := by
      apply filter_range_eq_single s.n_arms b _ hb
      intro i hi
      constructor
      · intro hpi
        have hieq : s.values.getD i 0 = npMax s.values := of_decide_eq_true hpi
        by_contra hib
        exact absurd (hieq.trans hmax) (ne_of_lt (hstrict i hi hib))
      · intro hib
        subst hib
        exact decide_eq_true hmax.symm
    simp [EpsilonGreedy.selectArm, hune, hba, Nat.mod_one]

/-- Witness for C6 at concrete inputs: exploration returns the drawn index,
and with epsilon = 0 and values [0, 1] every call returns arm 1. -/
theorem eg_select_arm_spec_witness :
    EpsilonGreedy.selectArm (EpsilonGreedy.init 2 1 ["A", "B"]) 0 1 0 = 1 ∧
    EpsilonGreedy.selectArm
      { toAgentState :=
          { n_arms := 2, arm_names := ["A", "B"], counts := [0, 1],
            values := [0, 1], total_reward := 1, total_pulls := 1 },
        epsilon := 0 } 1 0 5 = 1 := by
  constructor
  · have h1 : (0 : ℚ) < (EpsilonGreedy.init 2 1 ["A", "B"]).epsilon := by
      show (0 : ℚ) < 1
      norm_num
    exact eg_select_arm_spec.1 (EpsilonGreedy.init 2 1 ["A", "B"]) 0 1 0 h1
      (by decide)
  · refine eg_select_arm_spec.2.2 _ 1 0 5 1 rfl (by norm_num) (by decide)
      (by decide) ?_
    intro j hj hjb
    interval_cases j
    · show (0 : ℚ) < 1
      norm_num
    · exact absurd rfl hjb

end MAB

namespace MAB

/-! ## ThompsonSampling Beta parameters -/

theorem npIndex_natCast (n a : ℕ) (ha : a < n) : npIndex n (a : ℤ) = some a := by
  have h0 : (0 : ℤ) ≤ (a : ℤ) := Int.natCast_nonneg a
  have h1 : (a : ℤ) < (n : ℤ) := by exact_mod_cast ha
  simp [npIndex, h0, h1]

theorem getD_replicate_lt {α : Type} (x d : α) (n b : ℕ) (h : b < n) :
    (List.replicate n x).getD b d = x := by
  rw [List.getD_eq_getElem _ _ (by simpa using h)]
  simp

/-- A history of Thompson updates: arm, reward and the Bernoulli draw. -/
def runTSUpdates (s : TSState) (l : List (ℕ × ℚ × ℚ)) : TSState :=
  l.foldl (fun t p => (ThompsonSampling.update t p.1 p.2.1 p.2.2).1) s

/-- The per-arm relation between the Beta parameters and the pull count. -/
def tsInv (n : ℕ) (s : TSState) : Prop :=
  s.n_arms = n ∧ s.counts.length = n ∧ s.alpha.length = n ∧ s.beta.length = n ∧
  ∀ i, i < n → s.alpha.getD i 0 + s.beta.getD i 0 = 2 + (s.counts.getD i 0 : ℚ)

theorem tsInv_init (n : ℕ) (names : List String) :
    tsInv n (ThompsonSampling.init n names) := by
  refine ⟨rfl, by simp [ThompsonSampling.init, BaseAgent.init],
    by simp [ThompsonSampling.init], by simp [ThompsonSampling.init], ?_⟩
  intro i hi
  show (List.replicate n (1 : ℚ)).getD i 0 + (List.replicate n (1 : ℚ)).getD i 0 =
    2 + ((List.replicate n (0 : ℕ)).getD i 0 : ℚ)
  rw [getD_replicate_lt (1 : ℚ) 0 n i hi, getD_replicate_lt (0 : ℕ) 0 n i hi]
  norm_num

theorem tsInv_step {n : ℕ} {s : TSState} (a : ℕ) (r u : ℚ) (ha : a < n)
    (h : tsInv n s) :
    tsInv n (ThompsonSampling.update s (a : ℤ) r u).1 := by
  obtain ⟨hn, hcl, hal, hbl, hsum⟩ := h
  have hidx : npIndex s.n_arms (a : ℤ) = some a := by
    rw [hn]; exact npIndex_natCast n a ha
  have hca : a < s.counts.length := by rw [hcl]; exact ha
  have hcnew : (BaseAgent.updateAt s.toAgentState a r).counts =
      s.counts.set a (s.counts.getD a 0 + 1) := rfl
  by_cases hur : u < r
  · have hres : (ThompsonSampling.update s (a : ℤ) r u).1 =
        { s with
            toAgentState := BaseAgent.updateAt s.toAgentState a r
            alpha := s.alpha.set a (s.alpha.getD a 0 + 1) } := by
      simp [ThompsonSampling.update, hidx, hur]
    rw [hres]
    refine ⟨hn, by rw [hcnew, List.length_set]; exact hcl,
      by rw [List.length_set]; exact hal, hbl, ?_⟩
    intro i hi
    rw [hcnew]
    by_cases hia : i = a
    · subst hia
      rw [getD_set_self _ _ _ _ (by rw [hal]; exact hi),
        getD_set_self _ _ _ _ hca]
      have := hsum i hi
      push_cast
      linarith
    · rw [getD_set_ne _ _ _ _ _ (fun hh => hia hh.symm),
        getD_set_ne _ _ _ _ _ (fun hh => hia hh.symm)]
      exact hsum i hi
  · have hres : (ThompsonSampling.update s (a : ℤ) r u).1 =
        { s with
            toAgentState := BaseAgent.updateAt s.toAgentState a r
            beta := s.beta.set a (s.beta.getD a 0 + 1) } := by
      simp [ThompsonSampling.update, hidx, hur]
    rw [hres]
    refine ⟨hn, by rw [hcnew, List.length_set]; exact hcl, hal,
      by rw [List.length_set]; exact hbl, ?_⟩
    intro i hi
    rw [hcnew]
    by_cases hia : i = a
    · subst hia
      rw [getD_set_self _ _ _ _ (by rw [hbl]; exact hi),
        getD_set_self _ _ _ _ hca]
      have := hsum i hi
      push_cast
      linarith
    · rw [getD_set_ne _ _ _ _ _ (fun hh => hia hh.symm),
        getD_set_ne _ _ _ _ _ (fun hh => hia hh.symm)]
      exact hsum i hi

theorem tsInv_run {n : ℕ} (l : List (ℕ × ℚ × ℚ)) :
    ∀ s : TSState, (∀ p ∈ l, p.1 < n) → tsInv n s →
      tsInv n (runTSUpdates s l) := by
  induction l with
  | nil => intro s _ h; exact h
  | cons x xs ih =>
    intro s hv h
    have hx : x.1 < n := hv x (by simp)
    have h1 := tsInv_step x.1 x.2.1 x.2.2 hx h
    have hcast : ((x.1 : ℕ) : ℤ) = (x.1 : ℤ) := rfl
    have h2 := ih (ThompsonSampling.update s (x.1 : ℤ) x.2.1 x.2.2).1
      (fun p hp => hv p (by simp [hp])) h1
    simpa [runTSUpdates] using h2

/-- C7: alpha and beta start at 1.0 for every arm; update delegates to the
base update and then runs one Bernoulli trial on the drawn u, incrementing
exactly one of alpha[arm] (when reward > u) or beta[arm] (otherwise); hence
alpha[i] + beta[i] = 2 + counts[i] holds for every arm after every sequence
of valid updates. -/
theorem ts_alpha_beta_invariant :
    (∀ (n : ℕ) (names : List String) (i : ℕ), i < n →
        (ThompsonSampling.init n names).alpha.getD i 0 = 1 ∧
        (ThompsonSampling.init n names).beta.getD i 0 = 1) ∧
    (∀ (s : TSState) (a : ℕ) (reward u : ℚ), a < s.n_arms →
        (ThompsonSampling.update s (a : ℤ) reward u).2 = none ∧
        (ThompsonSampling.update s (a : ℤ) reward u).1.toAgentState =
          BaseAgent.updateAt s.toAgentState a reward ∧
        (u < reward →
          (ThompsonSampling.update s (a : ℤ) reward u).1.alpha =
            s.alpha.set a (s.alpha.getD a 0 + 1) ∧
          (ThompsonSampling.update s (a : ℤ) reward u).1.beta = s.beta) ∧
        (¬ u < reward →
          (ThompsonSampling.update s (a : ℤ) reward u).1.beta =
            s.beta.set a (s.beta.getD a 0 + 1) ∧
          (ThompsonSampling.update s (a : ℤ) reward u).1.alpha = s.alpha)) ∧
    (∀ (n : ℕ) (names : List String) (l : List (ℕ × ℚ × ℚ)) (i : ℕ),
        (∀ p ∈ l, p.1 < n) → i < n →
        (runTSUpdates (ThompsonSampling.init n names) l).alpha.getD i 0 +
            (runTSUpdates (ThompsonSampling.init n names) l).beta.getD i 0 =
          2 + ((runTSUpdates (ThompsonSampling.init n names) l).counts.getD i 0 : ℚ)) := by
  refine ⟨?_, ?_, ?_⟩
  · intro n names i hi
    constructor
    · show (List.replicate n (1 : ℚ)).getD i 0 = 1
      exact getD_replicate_lt _ _ _ _ hi
    · show (List.replicate n (1 : ℚ)).getD i 0 = 1
      exact getD_replicate_lt _ _ _ _ hi
  · intro s a reward u ha
    have hidx : npIndex s.n_arms (a : ℤ) = some a := npIndex_natCast _ a ha
    by_cases hur : u < reward
    · refine ⟨?_, ?_, fun _ => ⟨?_, ?_⟩, fun hc => absurd hur hc⟩ <;>
        simp [ThompsonSampling.update, hidx, hur]
    · refine ⟨?_, ?_, fun hc => absurd hc hur, fun _ => ⟨?_, ?_⟩⟩ <;>
        simp [ThompsonSampling.update, hidx, hur]
  · intro n names l i hv hi
    have h := tsInv_run l (ThompsonSampling.init n names) hv (tsInv_init n names)
    exact h.2.2.2.2 i hi

/-- Witness for C7 at concrete inputs: a fresh 2-arm agent and the single
update history [(0, 1, 1/2)]. -/
theorem ts_alpha_beta_invariant_witness :
    (ThompsonSampling.init 2 ["A", "B"]).alpha.getD 0 0 = 1 ∧
    (runTSUpdates (ThompsonSampling.init 2 ["A", "B"]) [(0, 1, 1 / 2)]).alpha.getD 0 0 +
        (runTSUpdates (ThompsonSampling.init 2 ["A", "B"]) [(0, 1, 1 / 2)]).beta.getD 0 0 =
      2 + ((runTSUpdates (ThompsonSampling.init 2 ["A", "B"]) [(0, 1, 1 / 2)]).counts.getD 0 0 : ℚ) := by
  constructor
  · exact (ts_alpha_beta_invariant.1 2 ["A", "B"] 0 (by decide)).1
  · exact ts_alpha_beta_invariant.2.2 2 ["A", "B"] [(0, 1, 1 / 2)] 0
      (by decide) (by decide)

end MAB

namespace MAB

/-! ## UCB selection -/

theorem firstHit_range'_some (p : ℕ → Bool) :
    ∀ (len s a : ℕ), s ≤ a → a < s + len → p a = true →
      (∀ b, s ≤ b → b < a → p b = false) →
      firstHit p (List.range' s len) = some a := by
  intro len
  induction len with
  | zero => intro s a h1 h2 _ _; omega
  | succ len ih =>
    intro s a hsa ha hpa hmin
    show firstHit p (s :: List.range' (s + 1) len) = some a
    by_cases hs : a = s
    · subst hs
      simp [firstHit, hpa]
    · have hps : p s = false := hmin s le_rfl (by omega)
      simp only [firstHit, hps, Bool.false_eq_true, if_false]
      exact ih (s + 1) a (by omega) (by omega) hpa
        (fun b hb1 hb2 => hmin b (by omega) hb2)

theorem firstHit_range'_none (p : ℕ → Bool) :
    ∀ (len s : ℕ), (∀ b, s ≤ b → b < s + len → p b = false) →
      firstHit p (List.range' s len) = none := by
  intro len
  induction len with
  | zero => intro s _; rfl
  | succ len ih =>
    intro s hall
    show firstHit p (s :: List.range' (s + 1) len) = none
    have hps : p s = false := hall s le_rfl (by omega)
    simp only [firstHit, hps, Bool.false_eq_true, if_false]
    exact ih (s + 1) (fun b hb1 hb2 => hall b (by omega) (by omega))

theorem warmupArm_eq_some {s : UCBState} {a : ℕ} (ha : a < s.n_arms)
    (h0 : s.counts.getD a 0 = 0) (hp : (a : ℤ) ∉ s.pending)
    (hmin : ∀ b, b < a → ¬(s.counts.getD b 0 = 0 ∧ (b : ℤ) ∉ s.pending)) :
    UCB.warmupArm s = some a := by
  unfold UCB.warmupArm
  rw [List.range_eq_range']
  exact firstHit_range'_some _ s.n_arms 0 a (Nat.zero_le a) (by omega)
    (decide_eq_true ⟨h0, hp⟩)
    (fun b _ hb => decide_eq_false (hmin b hb))

theorem warmupArm_eq_none {s : UCBState}
    (hall : ∀ b, b < s.n_arms → ¬(s.counts.getD b 0 = 0 ∧ (b : ℤ) ∉ s.pending)) :
    UCB.warmupArm s = none := by
  unfold UCB.warmupArm
  rw [List.range_eq_range']
  exact firstHit_range'_none _ s.n_arms 0
    (fun b _ hb => decide_eq_false (hall b (by omega)))

theorem selectArm_of_warmup {s : UCBState} {a : ℕ}
    (h : UCB.warmupArm s = some a) :
    UCB.selectArm s = (a, { s with pending := insert (a : ℤ) s.pending }) := by
  unfold UCB.selectArm
  rw [h]

theorem selectArm_of_steady {s : UCBState} (h : UCB.warmupArm s = none) :
    UCB.selectArm s = (argmaxIdx (UCB.scores s), s) := by
  unfold UCB.selectArm
  rw [h]

/-- The pending set after k warm-up selections: the integers 0..k-1. -/
def pendingOf (k : ℕ) : Finset ℤ := (Finset.range k).image (fun i : ℕ => (i : ℤ))

theorem mem_pendingOf (b k : ℕ) : ((b : ℤ) ∈ pendingOf k) ↔ b < k := by
  simp [pendingOf]

theorem pendingOf_succ (k : ℕ) :
    pendingOf (k + 1) = insert (k : ℤ) (pendingOf k) := by
  simp [pendingOf, Finset.range_succ, Finset.image_insert]

/-- A fresh UCB agent whose first k warm-up selections are outstanding. -/
def freshUCB (n : ℕ) (c : ℚ) (names : List String) (k : ℕ) : UCBState :=
  { UCB.init n c names with pending := pendingOf k }

theorem freshUCB_zero (n : ℕ) (c : ℚ) (names : List String) :
    freshUCB n c names 0 = UCB.init n c names := by
  have hp0 : pendingOf 0 = ∅ := by
    ext x
    simp [pendingOf]
  unfold freshUCB
  rw [hp0]
  rfl

theorem selectArm_fresh (n : ℕ) (c : ℚ) (names : List String) (k : ℕ)
    (hk : k < n) :
    UCB.selectArm (freshUCB n c names k) = (k, freshUCB n c names (k + 1)) := by
  have h1 : UCB.warmupArm (freshUCB n c names k) = some k := by
    apply warmupArm_eq_some
    · show k < n
      exact hk
    · show (List.replicate n 0).getD k 0 = 0
      exact getD_replicate 0 n k
    · show (k : ℤ) ∉ pendingOf k
      rw [mem_pendingOf]
      omega
    · intro b hb hcon
      exact hcon.2 ((mem_pendingOf b k).mpr hb)
  rw [selectArm_of_warmup h1]
  show _ = ((k : ℕ), { UCB.init n c names with pending := pendingOf (k + 1) })
  rw [pendingOf_succ]
  rfl

theorem selectMany_fresh (n : ℕ) (c : ℚ) (names : List String) :
    ∀ (m k : ℕ), k + m ≤ n →
      (UCB.selectMany (freshUCB n c names k) m).1 = List.range' k m := by
  intro m
  induction m with
  | zero => intro k _; rfl
  | succ m ih =>
    intro k hk
    show (UCB.selectMany (freshUCB n c names k) (m + 1)).1 =
      k :: List.range' (k + 1) m
    have hsel := selectArm_fresh n c names k (by omega)
    simp only [UCB.selectMany, hsel]
    rw [ih (k + 1) (by omega)]

theorem argmaxGo_spec :
    ∀ (xs l : List ℝ) (i best : ℕ) (m : ℝ),
      xs = l.drop i → i ≤ l.length → best < i → l.getD best 0 = m →
      (∀ k, k < i → l.getD k 0 ≤ m) →
      (∀ k, k < best → l.getD k 0 < m) →
      argmaxGo xs i best m < l.length ∧
      (∀ k, k < l.length → l.getD k 0 ≤ l.getD (argmaxGo xs i best m) 0) ∧
      (∀ k, k < argmaxGo xs i best m →
        l.getD k 0 < l.getD (argmaxGo xs i best m) 0) := by
  intro xs
  induction xs with
  | nil =>
    intro l i best m hdrop hi hbest hm hup hstrict
    have hlen : l.length ≤ i := by
      by_contra hcon
      push_neg at hcon
      have hd := List.drop_eq_nil_iff_le.mp hdrop.symm
      omega
    have hieq : i = l.length := le_antisymm hi hlen
    subst hieq
    have hred : argmaxGo ([] : List ℝ) l.length best m = best := rfl
    rw [hred]
    refine ⟨hbest, ?_, ?_⟩
    · intro k hk
      rw [hm]
      exact hup k hk
    · intro k hk
      rw [hm]
      exact hstrict k hk
  | cons x xs ih =>
    intro l i best m hdrop hi hbest hm hup hstrict
    have hil : i < l.length := by
      by_contra hcon
      push_neg at hcon
      rw [List.drop_eq_nil_iff_le.mpr hcon] at hdrop
      simp at hdrop
    rw [List.drop_eq_getElem_cons hil] at hdrop
    obtain ⟨hx, hxs⟩ := List.cons.inj hdrop
    have hgx : l.getD i 0 = x := by
      rw [List.getD_eq_getElem _ _ hil, ← hx]
    show argmaxGo (x :: xs) i best m < l.length ∧ _ ∧ _
    by_cases hmx : m < x
    · have hred : argmaxGo (x :: xs) i best m = argmaxGo xs (i + 1) i x := by
        simp [argmaxGo, hmx]
      rw [hred]
      exact ih l (i + 1) i x hxs (by omega) (by omega) hgx
        (fun k hk => by
          rcases Nat.lt_succ_iff_lt_or_eq.mp hk with h | h
          · exact le_of_lt (lt_of_le_of_lt (hup k h) hmx)
          · subst h
            exact le_of_eq hgx)
        (fun k hk => lt_of_le_of_lt (hup k hk) hmx)
    · have hred : argmaxGo (x :: xs) i best m = argmaxGo xs (i + 1) best m := by
        simp [argmaxGo, hmx]
      rw [hred]
      exact ih l (i + 1) best m hxs (by omega) (by omega) hm
        (fun k hk => by
          rcases Nat.lt_succ_iff_lt_or_eq.mp hk with h | h
          · exact hup k h
          · subst h
            rw [hgx]
            exact not_lt.mp hmx)
        hstrict

theorem argmaxIdx_spec (l : List ℝ) (hl : l ≠ []) :
    argmaxIdx l < l.length ∧
    (∀ k, k < l.length → l.getD k 0 ≤ l.getD (argmaxIdx l) 0) ∧
    (∀ k, k < argmaxIdx l → l.getD k 0 < l.getD (argmaxIdx l) 0) := by
  match l with
  | x :: xs =>
    exact argmaxGo_spec xs (x :: xs) 1 0 x rfl (by simp) Nat.zero_lt_one rfl
      (fun k hk => by
        have hk0 : k = 0 := by omega
        subst hk0
        exact le_rfl)
      (fun k hk => absurd hk (Nat.not_lt_zero k))

theorem scores_length (s : UCBState) : (UCB.scores s).length = s.n_arms := by
  simp [UCB.scores]

end MAB

namespace MAB

/-- C5: UCB select_arm returns the lowest-index arm with zero count that is
not in the pending set, inserting it into pending (so N successive calls on
a fresh N-arm agent without interleaved updates return 0, 1, ..., N-1, each
index exactly once); when no arm qualifies it returns the argmax of
values[i] + c * sqrt(ln(max(total_pulls, 1)) / max(counts[i], 1e-5)), the
maximum score being attained at the returned index and every earlier index
scoring strictly less (lowest-index tie-break). -/
theorem ucb_select_arm_spec :
    (∀ (s : UCBState) (a : ℕ), a < s.n_arms → s.counts.getD a 0 = 0 →
        (a : ℤ) ∉ s.pending →
        (∀ b, b < a → ¬(s.counts.getD b 0 = 0 ∧ (b : ℤ) ∉ s.pending)) →
        UCB.selectArm s = (a, { s with pending := insert (a : ℤ) s.pending })) ∧
    (∀ (n : ℕ) (c : ℚ) (names : List String),
        (UCB.selectMany (UCB.init n c names) n).1 = List.range n) ∧
    (∀ s : UCBState, 0 < s.n_arms →
        (∀ b, b < s.n_arms → ¬(s.counts.getD b 0 = 0 ∧ (b : ℤ) ∉ s.pending)) →
        UCB.selectArm s = (argmaxIdx (UCB.scores s), s) ∧
        argmaxIdx (UCB.scores s) < s.n_arms ∧
        (∀ k, k < s.n_arms →
          (UCB.scores s).getD k 0 ≤
            (UCB.scores s).getD (argmaxIdx (UCB.scores s)) 0) ∧
        (∀ k, k < argmaxIdx (UCB.scores s) →
          (UCB.scores s).getD k 0 <
            (UCB.scores s).getD (argmaxIdx (UCB.scores s)) 0)) := by
  refine ⟨?_, ?_, ?_⟩
  · intro s a ha h0 hp hmin
    exact selectArm_of_warmup (warmupArm_eq_some ha h0 hp hmin)
  · intro n c names
    rw [← freshUCB_zero n c names,
      selectMany_fresh n c names n 0 (by omega), List.range_eq_range']
  · intro s hn hall
    have hnone := warmupArm_eq_none hall
    have hlen : (UCB.scores s).length = s.n_arms := scores_length s
    have hne : UCB.scores s ≠ [] := by
      intro h0
      rw [h0] at hlen
      simp at hlen
      omega
    obtain ⟨h1, h2, h3⟩ := argmaxIdx_spec (UCB.scores s) hne
    rw [hlen] at h1
    exact ⟨selectArm_of_steady hnone, h1,
      fun k hk => h2 k (by rw [hlen]; exact hk), h3⟩

/-- A 2-arm UCB state past warm-up (both counts 1, nothing pending), used
only to witness the steady-state branch. -/
def ucbSteady : UCBState :=
  { toAgentState :=
      { n_arms := 2, arm_names := ["A", "B"], counts := [1, 1],
        values := [0, 1], total_reward := 1, total_pulls := 2 }
    c := 2
    pending := ∅ }

/-- Witness for C5 at concrete inputs: the first warm-up selection of a
fresh 2-arm agent, and the formula branch on a fully warmed state. -/
theorem ucb_select_arm_spec_witness :
    UCB.selectArm (UCB.init 2 2 ["A", "B"]) =
      (0, { UCB.init 2 2 ["A", "B"] with
              pending := insert ((0 : ℕ) : ℤ) (UCB.init 2 2 ["A", "B"]).pending }) ∧
    UCB.selectArm ucbSteady = (argmaxIdx (UCB.scores ucbSteady), ucbSteady) := by
  constructor
  · exact ucb_select_arm_spec.1 (UCB.init 2 2 ["A", "B"]) 0 (by decide)
      (by decide) (by decide) (fun b hb => absurd hb (Nat.not_lt_zero b))
  · exact (ucb_select_arm_spec.2.2 ucbSteady (by decide) (by decide)).1

end MAB
